import Mathlib

/-!
Verification of the local ensemble prediction engine of bigmler
(src/bigmler/bigmler.py), shallowly embedded in Lean.

The embedding follows the Python source of the `predict` function and of the
combination-method normalization in `main`.  External collaborators (the
bigml library's `MultiModel`, `multivote.combine`, `fields.pair`, and the
`checkpoint`/`are_predictions_created` helpers from `bigmler.utils`) are
modelled from the specification at their interface boundary, as indicated in
the corresponding doc comments.
-/

namespace BigMLer

/-- Python `range(start, stop, step)` for a non-negative step: the ascending
list `start, start+step, ...` of values below `stop`.  An empty list when the
step is zero (Python raises there; the call sites guard the step). -/
def rangeStep (start stop step : Nat) : List Nat :=
  if _h : 0 < step ∧ start < stop then
    start :: rangeStep (start + step) stop step
  else []
termination_by stop - start
decreasing_by omega

/-- The Chunk Planner (bigmler.py lines 223-224):
`models_splits = [models[index:(index + max_models)] for index
                  in range(0, models_total, max_models)]`.
A Python slice `models[i:i+M]` is `(models.drop i).take M`. -/
def models_splits {α : Type} (models : List α) (max_models : Nat) : List (List α) :=
  (rangeStep 0 models.length max_models).map
    (fun index => (models.drop index).take max_models)

/-- Recursive chunking used as a proof-side characterization of
`models_splits`: peel the first `M` elements, then chunk the rest. -/
def chunkList {α : Type} (M : Nat) (l : List α) : List (List α) :=
  if h : l.length = 0 ∨ M = 0 then []
  else l.take M :: chunkList M (l.drop M)
termination_by l.length
decreasing_by
  push_neg at h
  simp only [List.length_drop]
  omega

theorem rangeStep_shift (k s t step : Nat) :
    rangeStep (s + k) (t + k) step = (rangeStep s t step).map (fun x => x + k) := by
  induction s, t, step using rangeStep.induct with
  | case1 s t step h ih =>
      have h' : 0 < step ∧ s + k < t + k := ⟨h.1, by omega⟩
      conv_lhs => rw [rangeStep]
      conv_rhs => rw [rangeStep]
      rw [dif_pos h', dif_pos h]
      simp only [List.map_cons]
      have hsk : s + k + step = s + step + k := by omega
      rw [hsk, ih]
  | case2 s t step h =>
      have h' : ¬ (0 < step ∧ s + k < t + k) := by
        intro hc
        exact h ⟨hc.1, by omega⟩
      conv_lhs => rw [rangeStep]
      conv_rhs => rw [rangeStep]
      rw [dif_neg h', dif_neg h]
      simp

theorem models_splits_cons {α : Type} {M : Nat} (hM : 0 < M) (l : List α)
    (hl : l ≠ []) :
    models_splits l M = l.take M :: models_splits (l.drop M) M := by
  have hN : 0 < l.length := List.length_pos.mpr hl
  unfold models_splits
  rw [rangeStep, dif_pos ⟨hM, hN⟩]
  simp only [List.map_cons, List.drop_zero, Nat.zero_add]
  congr 1
  by_cases hcase : M < l.length
  · have hM' : rangeStep (0 + M) (l.length - M + M) M
        = (rangeStep 0 (l.length - M) M).map (fun x => x + M) :=
      rangeStep_shift M 0 (l.length - M) M
    have h0 : (0:Nat) + M = M := by omega
    have h1 : l.length - M + M = l.length := by omega
    rw [h0, h1] at hM'
    rw [hM', List.length_drop, List.map_map]
    apply List.map_congr_left
    intro i _
    simp only [Function.comp_apply]
    have hdd : List.drop i (List.drop M l) = List.drop (i + M) l := by
      rw [List.drop_drop, Nat.add_comm]
    rw [hdd]
  · have h1 : rangeStep M l.length M = [] := by
      rw [rangeStep, dif_neg]
      intro hc
      omega
    have h2 : rangeStep 0 (l.drop M).length M = [] := by
      rw [rangeStep, dif_neg]
      intro hc
      rw [List.length_drop] at hc
      omega
    rw [h1, h2]
    simp

theorem models_splits_eq_chunkList {α : Type} {M : Nat} (hM : 0 < M)
    (l : List α) : models_splits l M = chunkList M l := by
  induction l using chunkList.induct M with
  | case1 l h =>
      rcases h with h | h
      · have hnil : l = [] := List.length_eq_zero.mp h
        subst hnil
        rw [chunkList, dif_pos (Or.inl h)]
        unfold models_splits
        rw [rangeStep, dif_neg]
        · rfl
        · simp
      · omega
  | case2 l h ih =>
      push_neg at h
      have hl : l ≠ [] := by
        intro hc
        apply h.1
        rw [hc]
        rfl
      rw [models_splits_cons hM l hl, chunkList, dif_neg]
      · rw [ih]
      · push_neg
        exact h

theorem chunkList_flatten {α : Type} {M : Nat} (hM : 0 < M) (l : List α) :
    (chunkList M l).flatten = l := by
  induction l using chunkList.induct M with
  | case1 l h =>
      rcases h with h | h
      · have hnil : l = [] := List.length_eq_zero.mp h
        subst hnil
        rw [chunkList, dif_pos (Or.inl h)]
        rfl
      · omega
  | case2 l h ih =>
      rw [chunkList, dif_neg h]
      simp [ih]

theorem chunkList_length {α : Type} {M : Nat} (hM : 0 < M) (l : List α) :
    (chunkList M l).length = (l.length + M - 1) / M := by
  induction l using chunkList.induct M with
  | case1 l h =>
      rcases h with h | h
      · rw [chunkList, dif_pos (Or.inl h)]
        rw [h]
        simp only [List.length_nil]
        rw [Nat.div_eq_of_lt (by omega)]
      · omega
  | case2 l h ih =>
      push_neg at h
      have hl : 0 < l.length := by omega
      rw [chunkList, dif_neg (by push_neg; exact h)]
      simp only [List.length_cons, List.length_drop] at ih ⊢
      rw [ih]
      by_cases hcase : M ≤ l.length
      · have h1 : l.length - M + M - 1 = l.length - 1 := by omega
        have h2 : l.length + M - 1 = (l.length - 1) + M := by omega
        rw [h1, h2, Nat.add_div_right _ hM]
      · have h1 : l.length - M + M - 1 = M - 1 := by omega
        have h2 : (M - 1) / M = 0 := Nat.div_eq_of_lt (by omega)
        rw [h1, h2]
        have h3 : (l.length + M - 1) / M = 1 := by
          apply Nat.div_eq_of_lt_le
          · omega
          · omega
        omega

theorem chunkList_mem {α : Type} {M : Nat} (l : List α) :
    ∀ g ∈ chunkList M l, g.length ≤ M ∧ g ≠ [] := by
  induction l using chunkList.induct M with
  | case1 l h =>
      rw [chunkList, dif_pos h]
      intro g hg
      simp at hg
  | case2 l h ih =>
      push_neg at h
      rw [chunkList, dif_neg (by push_neg; exact h)]
      intro g hg
      rcases List.mem_cons.mp hg with hg | hg
      · subst hg
        constructor
        · simp [List.length_take]
        · intro hc
          have hlen : (l.take M).length = 0 := by rw [hc]; rfl
          rw [List.length_take] at hlen
          omega
      · exact ih g hg

theorem chunkList_middle {α : Type} {M : Nat} (l : List α) :
    ∀ i, i + 1 < (chunkList M l).length → ((chunkList M l).getD i []).length = M := by
  induction l using chunkList.induct M with
  | case1 l h =>
      rw [chunkList, dif_pos h]
      intro i hi
      simp at hi
  | case2 l h ih =>
      push_neg at h
      rw [chunkList, dif_neg (by push_neg; exact h)]
      intro i hi
      cases i with
      | zero =>
          simp only [List.getD_cons_zero, List.length_take]
          simp only [List.length_cons] at hi
          have htail : chunkList M (l.drop M) ≠ [] := by
            intro hc
            rw [hc] at hi
            simp at hi
          have hdrop : (l.drop M).length ≠ 0 := by
            intro hc
            rw [chunkList, dif_pos (Or.inl hc)] at htail
            exact htail rfl
          rw [List.length_drop] at hdrop
          omega
      | succ j =>
          simp only [List.getD_cons_succ]
          apply ih
          simp only [List.length_cons] at hi
          omega

/-- C1: the Chunk Planner (the `models_splits` list comprehension,
bigmler.py lines 223-224) produces exactly `ceil(N/M)` groups, its groups
concatenate back to the original model list (so every model appears exactly
once, order preserved within and across groups), every group has at most `M`
elements and is non-empty, and every group except possibly the last has
exactly `M` elements. -/
theorem C1_chunk_planner {α : Type} (models : List α) (M : Nat) (hM : 0 < M) :
    (models_splits models M).length = (models.length + M - 1) / M ∧
    (models_splits models M).flatten = models ∧
    (∀ g ∈ models_splits models M, g.length ≤ M ∧ g ≠ []) ∧
    (∀ i, i + 1 < (models_splits models M).length →
      ((models_splits models M).getD i []).length = M) := by
  rw [models_splits_eq_chunkList hM]
  exact ⟨chunkList_length hM models, chunkList_flatten hM models,
    chunkList_mem models, chunkList_middle models⟩

/-- Witness for C1 at a concrete input: five models in groups of two. -/
theorem C1_chunk_planner_witness :
    0 < 2 ∧
    ((models_splits [10, 11, 12, 13, 14] 2).length = (5 + 2 - 1) / 2 ∧
    (models_splits [10, 11, 12, 13, 14] 2).flatten = [10, 11, 12, 13, 14] ∧
    (∀ g ∈ models_splits [10, 11, 12, 13, 14] 2, g.length ≤ 2 ∧ g ≠ []) ∧
    (∀ i, i + 1 < (models_splits [10, 11, 12, 13, 14] 2).length →
      ((models_splits [10, 11, 12, 13, 14] 2).getD i []).length = 2)) :=
  ⟨by decide, C1_chunk_planner [10, 11, 12, 13, 14] 2 (by decide)⟩

/-- Modelled from the spec: §4.3 batch mode — `MultiModel.batch_predict` and
`batch_votes` (external bigml library) evaluate one group of models on the
full ordered sequence of input records and return, per record, the group's
predictions in model order. -/
def batch_votes {μ ι π : Type} (score : μ → ι → π) (group : List μ)
    (inputs : List ι) : List (List π) :=
  inputs.map (fun x => group.map (fun m => score m x))

/-- The per-group vote extension loop (bigmler.py lines 256-258):
`for index in range(0, len(votes)):` followed by
`total_votes[index].predictions.extend(votes[index].predictions)`.
Fails (Python IndexError) when the incoming votes list is longer than the
accumulated one. -/
def extendVotes {π : Type} : List (List π) → List (List π) → Option (List (List π))
  | total, [] => some total
  | [], _ :: _ => none
  | t :: ts, v :: vs => (extendVotes ts vs).map (fun r => (t ++ v) :: r)

/-- The Vote Accumulator (bigmler.py lines 231, 255-260): starting from
`total_votes = []`, each group's votes either initialize the accumulator
(`total_votes = votes`) or extend every row's prediction list. -/
def accumulate_votes {π : Type} (groupVotes : List (List (List π))) :
    Option (List (List π)) :=
  groupVotes.foldl
    (fun acc votes => acc.bind
      (fun total_votes =>
        if total_votes.isEmpty then some votes else extendVotes total_votes votes))
    (some [])

/-- Modelled from the spec: §4.5 plurality combination (`multivote.combine`,
external bigml library) — the value with the highest occurrence count wins,
ties broken by the earliest first occurrence in the bundle. -/
def combinePlurality {π : Type} [DecidableEq π] (votes : List π) : Option π :=
  votes.foldl
    (fun best v =>
      match best with
      | none => some v
      | some b => if votes.count b < votes.count v then some v else some b)
    none

inductive ScoreMode where
  | combined
  | batch
deriving DecidableEq

/-- Local prediction mode selection (bigmler.py line 209): a single combined
MultiModel when `models_total < max_models`, batch scoring otherwise. -/
def predict_mode (models_total max_models : Nat) : ScoreMode :=
  if models_total < max_models then ScoreMode.combined else ScoreMode.batch

/-- The warning text emitted on a partly mismatched schema
(bigmler.py lines 136-141). -/
def mismatch_warning (fields_names headers : List String) : String :=
  "WARNING: predictions will be processed but some data might not be used. " ++
  "The used fields will be:\n\n" ++ String.intercalate "," fields_names ++
  "\n\nwhile the headers found in the test file are:\n\n" ++
  String.intercalate "," headers

/-- The fatal message raised when no test column matches the model fields
(bigmler.py lines 145-151). -/
def no_match_error (fields_names headers : List String) : String :=
  "No test field matches the model fields.\nThe expected fields are:\n\n" ++
  String.intercalate "," fields_names ++
  "\n\nwhile the headers found in the test file are:\n\n" ++
  String.intercalate "," headers ++
  "\n\nUse --no-test-header flag if first line should not be interpreted as headers."

/-- Exclusion indices (bigmler.py lines 131-133):
`exclude = [i for i in range(len(headers)) if not headers[i] in fields_names]`
followed by `exclude.reverse()`, so the list is stored in descending order. -/
def exclude_indices (fields_names headers : List String) : List Nat :=
  ((List.range headers.length).filter
    (fun i => !(fields_names.contains (headers.getD i "")))).reverse

/-- Sequential Python `del l[index]` deletions (bigmler.py lines 142-143 for
the header list and 227-228 for every row), applied in the stored order. -/
def delete_indices {α : Type} (l : List α) (idxs : List Nat) : List α :=
  idxs.foldl (fun acc i => acc.eraseIdx i) l

/-- The Schema Reconciler (bigmler.py lines 122-151): computes the exclusion
indices; raises when nothing matches; warns and deletes the excluded headers
when only part of them match.  Returns the reduced headers, the exclusion
indices and the optional warning. -/
def reconcile_headers (fields_names headers : List String) :
    Except String (List String × List Nat × Option String) :=
  if (exclude_indices fields_names headers).length ≠ 0 then
    if headers.length - (exclude_indices fields_names headers).length ≠ 0 then
      Except.ok (delete_indices headers (exclude_indices fields_names headers),
        exclude_indices fields_names headers,
        some (mismatch_warning fields_names headers))
    else
      Except.error (no_match_error fields_names headers)
  else
    Except.ok (headers, exclude_indices fields_names headers, none)

/-- Observable steps of one `predict` run, in program order. -/
inductive Ev where
  | openTestFile
  | readHeaderRow
  | warn (msg : String)
  | openOutputFile
  | pairRow (i : Nat)
  | scoreGroup (k : Nat)
  | writeRow (i : Nat)
deriving DecidableEq

/-- Result of one local prediction run: the ordered event trace, the rows
written to the output sink (or the fatal error), and the models whose
per-model predictions were persisted to storage. -/
structure RunResult (μ γ : Type) where
  trace : List Ev
  output : Except String (List γ)
  persisted : List μ

/-- The Local Scorer (bigmler.py lines 203-264, after header handling and
output opening): combined mode when `models_total < max_models` — one
MultiModel over all models, one already-combined prediction per row, nothing
persisted; otherwise batch mode over `models_splits` — `input_data_list` is
materialized first, each group's per-model predictions are persisted
(`MultiModel.batch_predict`, external, one artifact per model), votes are
accumulated and finally combined.  `pairFn` stands for the external
`fields.pair`. -/
def run_local_scoring {μ ι π γ : Type} (score : μ → ι → π)
    (combine : List π → γ) (pairFn : List String → ι) (exclude : List Nat)
    (rows : List (List String)) (ms : List μ) (max_models : Nat)
    (trace : List Ev) : RunResult μ γ :=
  if ms.length < max_models then
    { trace := trace ++ (List.range rows.length).flatMap
        (fun i => [Ev.pairRow i, Ev.writeRow i]),
      output := Except.ok (rows.map
        (fun r => combine (ms.map (fun m => score m (pairFn (delete_indices r exclude)))))),
      persisted := [] }
  else
    match accumulate_votes ((models_splits ms max_models).map
        (fun g => batch_votes score g
          (rows.map (fun r => pairFn (delete_indices r exclude))))) with
    | none =>
        { trace := trace ++ (List.range rows.length).map Ev.pairRow,
          output := Except.error "IndexError",
          persisted := (models_splits ms max_models).flatten }
    | some total =>
        { trace := trace ++ (List.range rows.length).map Ev.pairRow
            ++ (List.range (models_splits ms max_models).length).map Ev.scoreGroup
            ++ (List.range total.length).map Ev.writeRow,
          output := Except.ok (total.map combine),
          persisted := (models_splits ms max_models).flatten }

/-- The local branch of `predict` (bigmler.py lines 113-264): open the test
reader, reconcile headers when a header row is expected (possibly fatal),
open the output file, then score. -/
def predict_local {μ ι π γ : Type} (score : μ → ι → π) (combine : List π → γ)
    (pairFn : List String → ι) (fields_names : List String)
    (test_set_header : Bool) (headers : List String)
    (rows : List (List String)) (ms : List μ) (max_models : Nat) :
    RunResult μ γ :=
  if test_set_header then
    match reconcile_headers fields_names headers with
    | Except.error msg =>
        { trace := [Ev.openTestFile, Ev.readHeaderRow],
          output := Except.error msg, persisted := [] }
    | Except.ok (_, exclude, warnOpt) =>
        run_local_scoring score combine pairFn exclude rows ms max_models
          ([Ev.openTestFile, Ev.readHeaderRow]
            ++ (match warnOpt with | some w => [Ev.warn w] | none => [])
            ++ [Ev.openOutputFile])
  else
    run_local_scoring score combine pairFn [] rows ms max_models
      [Ev.openTestFile, Ev.openOutputFile]

theorem extendVotes_map {ι π : Type} (f g : ι → List π) (rows : List ι) :
    extendVotes (rows.map f) (rows.map g)
      = some (rows.map (fun x => f x ++ g x)) := by
  induction rows with
  | nil => rfl
  | cons r rs ih =>
      simp only [List.map_cons, extendVotes, ih]
      rfl

theorem accumulate_aux {μ ι π : Type} (score : μ → ι → π) (rows : List ι) :
    ∀ (gs : List (List μ)) (f : ι → List π),
      List.foldl
        (fun acc votes => acc.bind
          (fun total_votes =>
            if total_votes.isEmpty then some votes else extendVotes total_votes votes))
        (some (rows.map f)) (gs.map (fun g => batch_votes score g rows))
      = some (rows.map (fun x => f x ++ gs.flatten.map (fun m => score m x))) := by
  intro gs
  induction gs with
  | nil =>
      intro f
      simp
  | cons g gs ih =>
      intro f
      rw [List.map_cons, List.foldl_cons]
      cases rows with
      | nil =>
          exact ih f
      | cons r rs =>
          have hstep1 :
              ((some (List.map f (r :: rs))).bind
                (fun total_votes =>
                  if total_votes.isEmpty = true
                  then some (batch_votes score g (r :: rs))
                  else extendVotes total_votes (batch_votes score g (r :: rs))))
              = some (List.map
                  (fun x => f x ++ List.map (fun m => score m x) g) (r :: rs)) :=
            extendVotes_map f (fun x => List.map (fun m => score m x) g) (r :: rs)
          rw [hstep1, ih (fun x => f x ++ List.map (fun m => score m x) g)]
          simp [List.append_assoc]

theorem accumulate_votes_spec {μ ι π : Type} (score : μ → ι → π) (rows : List ι)
    (gs : List (List μ)) (hgs : gs ≠ []) :
    accumulate_votes (gs.map (fun g => batch_votes score g rows))
      = some (rows.map (fun x => gs.flatten.map (fun m => score m x))) := by
  cases gs with
  | nil => exact absurd rfl hgs
  | cons g gs =>
      unfold accumulate_votes
      rw [List.map_cons, List.foldl_cons]
      have hstep0 :
          ((some ([] : List (List π))).bind
            (fun total_votes =>
              if total_votes.isEmpty = true
              then some (batch_votes score g rows)
              else extendVotes total_votes (batch_votes score g rows)))
          = some (rows.map (fun x => List.map (fun m => score m x) g)) := rfl
      rw [hstep0, accumulate_aux score rows gs (fun x => List.map (fun m => score m x) g)]
      simp

/-- C2: after the vote accumulation loop (bigmler.py lines 255-260) has
processed every group produced by the Chunk Planner, every row's accumulated
vote bundle is exactly the whole model list's predictions for that row — in
particular it has length `N` and is in original model order — regardless of
the chunk size used. -/
theorem C2_vote_bundles {μ ι π : Type} (score : μ → ι → π) (ms : List μ)
    (rows : List ι) (M : Nat) (hM : 0 < M) (hms : ms ≠ []) :
    accumulate_votes ((models_splits ms M).map (fun g => batch_votes score g rows))
      = some (rows.map (fun x => ms.map (fun m => score m x))) ∧
    ∀ bundle ∈ rows.map (fun x => ms.map (fun m => score m x)),
      bundle.length = ms.length := by
  have hflat : (models_splits ms M).flatten = ms := by
    rw [models_splits_eq_chunkList hM]
    exact chunkList_flatten hM ms
  have hne : models_splits ms M ≠ [] := by
    intro hc
    apply hms
    rw [← hflat, hc]
    rfl
  constructor
  · rw [accumulate_votes_spec score rows _ hne, hflat]
  · intro bundle hb
    rcases List.mem_map.mp hb with ⟨x, _, hx⟩
    rw [← hx]
    simp

/-- Witness for C2: three models scored over two rows in groups of two. -/
theorem C2_vote_bundles_witness :
    0 < 2 ∧ ([1, 2, 3] : List Nat) ≠ [] ∧
    (accumulate_votes ((models_splits [1, 2, 3] 2).map
        (fun g => batch_votes (fun (m x : Nat) => m * 100 + x) g [7, 8]))
      = some ([7, 8].map (fun x => [1, 2, 3].map (fun m => m * 100 + x))) ∧
    ∀ bundle ∈ [7, 8].map (fun x => [1, 2, 3].map (fun m => m * 100 + x)),
      bundle.length = ([1, 2, 3] : List Nat).length) :=
  ⟨by decide, by decide,
    C2_vote_bundles (fun m x => m * 100 + x) [1, 2, 3] [7, 8] 2
      (by decide) (by decide)⟩

theorem run_local_scoring_batch {μ ι π γ : Type} (score : μ → ι → π)
    (combine : List π → γ) (pairFn : List String → ι) (exclude : List Nat)
    (rows : List (List String)) (ms : List μ) (M : Nat) (trace : List Ev)
    (hM : 0 < M) (hle : M ≤ ms.length) :
    (run_local_scoring score combine pairFn exclude rows ms M trace).output
      = Except.ok ((rows.map (fun r =>
          ms.map (fun m => score m (pairFn (delete_indices r exclude))))).map combine) := by
  have hms : ms ≠ [] := by
    intro hc
    rw [hc] at hle
    simp at hle
    omega
  have hflat : (models_splits ms M).flatten = ms := by
    rw [models_splits_eq_chunkList hM]
    exact chunkList_flatten hM ms
  have hne : models_splits ms M ≠ [] := by
    intro hc
    apply hms
    rw [← hflat, hc]
    rfl
  unfold run_local_scoring
  rw [if_neg (by omega)]
  rw [accumulate_votes_spec score (rows.map (fun r => pairFn (delete_indices r exclude)))
    (models_splits ms M) hne, hflat]
  simp [List.map_map, Function.comp_def]

/-- C3: the local prediction engine (bigmler.py lines 209-264) selects
combined mode exactly when the total model count is strictly below the chunk
size; in combined mode it emits one already-combined prediction per input
record and persists nothing; in batch mode it persists exactly one artifact
per model, in model order. -/
theorem C3_mode_and_persistence {μ ι π γ : Type} (score : μ → ι → π)
    (combine : List π → γ) (pairFn : List String → ι)
    (rows : List (List String)) (ms : List μ) (M : Nat) (trace : List Ev)
    (hM : 0 < M) :
    (predict_mode ms.length M = ScoreMode.combined ↔ ms.length < M) ∧
    (ms.length < M →
      (run_local_scoring score combine pairFn [] rows ms M trace).persisted = [] ∧
      (run_local_scoring score combine pairFn [] rows ms M trace).output =
        Except.ok (rows.map (fun r =>
          combine (ms.map (fun m => score m (pairFn (delete_indices r []))))))) ∧
    (M ≤ ms.length →
      (run_local_scoring score combine pairFn [] rows ms M trace).persisted = ms) := by
  refine ⟨?_, ?_, ?_⟩
  · unfold predict_mode
    by_cases h : ms.length < M
    · simp [h]
    · simp [h]
  · intro h
    unfold run_local_scoring
    rw [if_pos h]
    exact ⟨rfl, rfl⟩
  · intro h
    have hflat : (models_splits ms M).flatten = ms := by
      rw [models_splits_eq_chunkList hM]
      exact chunkList_flatten hM ms
    unfold run_local_scoring
    rw [if_neg (by omega)]
    split
    · exact hflat
    · exact hflat

/-- Witness for C3: two models with chunk size three (combined mode side)
still exercise the mode equivalence and both implications at a concrete
input; the batch side is discharged vacuously false antecedent aside by a
second application with chunk size one. -/
theorem C3_mode_and_persistence_witness :
    0 < 3 ∧
    ((predict_mode ([5, 6] : List Nat).length 3 = ScoreMode.combined ↔
        ([5, 6] : List Nat).length < 3) ∧
    (([5, 6] : List Nat).length < 3 →
      (run_local_scoring (fun (m : Nat) (x : Nat) => m + x) (fun l => l.length)
        (fun r => r.length) [] [["a"], ["b"]] [5, 6] 3 []).persisted = [] ∧
      (run_local_scoring (fun (m : Nat) (x : Nat) => m + x) (fun l => l.length)
        (fun r => r.length) [] [["a"], ["b"]] [5, 6] 3 []).output =
        Except.ok ([["a"], ["b"]].map (fun r =>
          (([5, 6] : List Nat).map
            (fun m => m + (delete_indices r []).length)).length))) ∧
    (3 ≤ ([5, 6] : List Nat).length →
      (run_local_scoring (fun (m : Nat) (x : Nat) => m + x) (fun l => l.length)
        (fun r => r.length) [] [["a"], ["b"]] [5, 6] 3 []).persisted = [5, 6])) :=
  ⟨by decide,
    C3_mode_and_persistence (fun m x => m + x) (fun l => l.length)
      (fun r => r.length) [["a"], ["b"]] [5, 6] 3 [] (by decide)⟩

/-- C4 counterexample: with total model count `N = 2` and chunk size
`M = N = 2`, the mode test `models_total < max_models` (bigmler.py line 209)
is false, so the engine runs batch mode — not combined mode as the claim
asserts for `M = N`. -/
theorem C4_mode_counterexample :
    predict_mode 2 2 = ScoreMode.batch ∧ predict_mode 2 2 ≠ ScoreMode.combined := by
  constructor
  · rfl
  · intro h
    cases h

/-- C4 (amended): for the same models, inputs and the plurality combination,
a run with chunk size `M = N` (single group, batch mode) and a run with
`0 < M < N` (several groups, batch mode with vote accumulation) write
identical combined predictions row for row. -/
theorem C4_plurality_chunk_invariance {μ ι π : Type} [DecidableEq π]
    (score : μ → ι → π) (pairFn : List String → ι)
    (rows : List (List String)) (ms : List μ) (M : Nat) (t1 t2 : List Ev)
    (hM : 0 < M) (hMN : M < ms.length) :
    (run_local_scoring score combinePlurality pairFn [] rows ms ms.length t1).output
      = (run_local_scoring score combinePlurality pairFn [] rows ms M t2).output := by
  rw [run_local_scoring_batch score combinePlurality pairFn [] rows ms ms.length t1
      (by omega) (le_refl _),
    run_local_scoring_batch score combinePlurality pairFn [] rows ms M t2
      hM (by omega)]

/-- Witness for C4: three models over two rows, chunk sizes three and one. -/
theorem C4_plurality_chunk_invariance_witness :
    0 < 1 ∧ 1 < ([1, 2, 3] : List Nat).length ∧
    (run_local_scoring (fun (m : Nat) (r : List String) => m % 2)
        combinePlurality (fun r => r) [] [["x"], ["y"]] [1, 2, 3]
        ([1, 2, 3] : List Nat).length []).output
      = (run_local_scoring (fun (m : Nat) (r : List String) => m % 2)
        combinePlurality (fun r => r) [] [["x"], ["y"]] [1, 2, 3] 1 []).output :=
  ⟨by decide, by decide,
    C4_plurality_chunk_invariance (fun m r => m % 2) (fun r => r)
      [["x"], ["y"]] [1, 2, 3] 1 [] [] (by decide) (by decide)⟩

/-- Keep the cells whose original column index (counting from `k`) is not in
`idxs`: the no-index-shift semantics intended for column exclusion. -/
def keep_cols {α : Type} (idxs : List Nat) : Nat → List α → List α
  | _, [] => []
  | k, a :: as =>
      if idxs.contains k then keep_cols idxs (k + 1) as
      else a :: keep_cols idxs (k + 1) as

theorem contains_eq_true_iff {α : Type} [BEq α] [LawfulBEq α] (l : List α)
    (a : α) : l.contains a = true ↔ a ∈ l := by
  simp [List.contains, List.elem_eq_mem]

theorem keep_cols_of_lt {α : Type} (idxs : List Nat) :
    ∀ (l : List α) (k : Nat), (∀ j ∈ idxs, j < k) → keep_cols idxs k l = l := by
  intro l
  induction l with
  | nil => intro k _; rfl
  | cons a as ih =>
      intro k hk
      have hc : idxs.contains k = false := by
        cases hcc : idxs.contains k
        · rfl
        · have hmem := (contains_eq_true_iff idxs k).mp hcc
          have := hk k hmem
          omega
      show (if idxs.contains k then keep_cols idxs (k + 1) as
        else a :: keep_cols idxs (k + 1) as) = a :: as
      rw [hc, if_neg (by simp)]
      rw [ih (k + 1) (fun j hj => Nat.lt_succ_of_lt (hk j hj))]

theorem keep_cols_erase {α : Type} :
    ∀ (l : List α) (i k : Nat) (rest : List Nat), k ≤ i → (∀ j ∈ rest, j < i) →
      keep_cols rest k (l.eraseIdx (i - k)) = keep_cols (i :: rest) k l := by
  intro l
  induction l with
  | nil => intro i k rest _ _; rfl
  | cons a as ih =>
      intro i k rest hk hrest
      by_cases hik : k = i
      · subst hik
        have hz : k - k = 0 := by omega
        rw [hz, List.eraseIdx_cons_zero]
        rw [keep_cols_of_lt rest as k hrest]
        have hc : (k :: rest).contains k = true :=
          (contains_eq_true_iff _ _).mpr (List.mem_cons_self k rest)
        show as = (if (k :: rest).contains k then keep_cols (k :: rest) (k + 1) as
          else a :: keep_cols (k :: rest) (k + 1) as)
        rw [hc, if_pos rfl]
        rw [keep_cols_of_lt (k :: rest) as (k + 1)]
        intro j hj
        rcases List.mem_cons.mp hj with hj | hj
        · omega
        · have := hrest j hj
          omega
      · have hki : k < i := by omega
        have hsub : i - k = (i - (k + 1)) + 1 := by omega
        rw [hsub, List.eraseIdx_cons_succ]
        have hcond : (i :: rest).contains k = rest.contains k := by
          rw [List.contains_cons]
          have hne : (k == i) = false := by
            simp [hik]
          rw [hne, Bool.false_or]
        show (if rest.contains k then keep_cols rest (k + 1) (as.eraseIdx (i - (k + 1)))
            else a :: keep_cols rest (k + 1) (as.eraseIdx (i - (k + 1))))
          = (if (i :: rest).contains k then keep_cols (i :: rest) (k + 1) as
            else a :: keep_cols (i :: rest) (k + 1) as)
        rw [hcond, ih i (k + 1) rest (by omega) hrest]

theorem delete_indices_eq_keep_cols {α : Type} :
    ∀ (idxs : List Nat) (l : List α), idxs.Pairwise (· > ·) →
      delete_indices l idxs = keep_cols idxs 0 l := by
  intro idxs
  induction idxs with
  | nil =>
      intro l _
      have : keep_cols ([] : List Nat) 0 l = l :=
        keep_cols_of_lt [] l 0 (by intro j hj; cases hj)
      rw [this]
      rfl
  | cons i rest ih =>
      intro l hp
      have h1 : rest.Pairwise (· > ·) := (List.pairwise_cons.mp hp).2
      have h2 : ∀ j ∈ rest, j < i := (List.pairwise_cons.mp hp).1
      have hfold : delete_indices l (i :: rest) = delete_indices (l.eraseIdx i) rest := rfl
      rw [hfold, ih (l.eraseIdx i) h1]
      have herase := keep_cols_erase l i 0 rest (Nat.zero_le i) h2
      simpa using herase

theorem keep_cols_pred {α : Type} [Inhabited α] (idxs : List Nat) (q : α → Bool) :
    ∀ (l : List α) (k : Nat),
      (∀ m, m < l.length → idxs.contains (k + m) = !(q (l.getD m default))) →
      keep_cols idxs k l = l.filter q := by
  intro l
  induction l with
  | nil => intro k _; rfl
  | cons a as ih =>
      intro k h
      have h0 : idxs.contains k = !(q a) := by
        have := h 0 (by simp)
        simpa using this
      have hrec : ∀ m, m < as.length →
          idxs.contains ((k + 1) + m) = !(q (as.getD m default)) := by
        intro m hm
        have hh := h (m + 1) (by simp; omega)
        have harith : k + (m + 1) = (k + 1) + m := by omega
        rw [harith] at hh
        simpa using hh
      show (if idxs.contains k then keep_cols idxs (k + 1) as
          else a :: keep_cols idxs (k + 1) as) = (a :: as).filter q
      rw [h0, ih (k + 1) hrec, List.filter_cons]
      cases hq : q a
      · simp [hq]
      · simp [hq]

theorem mem_exclude_indices (f hs : List String) (j : Nat) :
    j ∈ exclude_indices f hs ↔
      j < hs.length ∧ f.contains (hs.getD j "") = false := by
  unfold exclude_indices
  rw [List.mem_reverse, List.mem_filter, List.mem_range]
  constructor
  · rintro ⟨h1, h2⟩
    refine ⟨h1, ?_⟩
    simpa using h2
  · rintro ⟨h1, h2⟩
    refine ⟨h1, ?_⟩
    show (!(f.contains (hs.getD j ""))) = true
    rw [h2]
    rfl

theorem exclude_indices_sorted (f hs : List String) :
    (exclude_indices f hs).Pairwise (· > ·) := by
  unfold exclude_indices
  rw [List.pairwise_reverse]
  exact (List.pairwise_lt_range hs.length).filter _

theorem reconcile_headers_no_match (f hs : List String) (hne : hs ≠ [])
    (hnomatch : ∀ h ∈ hs, f.contains h = false) :
    reconcile_headers f hs = Except.error (no_match_error f hs) := by
  have hall : (List.range hs.length).filter
      (fun i => !(f.contains (hs.getD i ""))) = List.range hs.length := by
    rw [List.filter_eq_self]
    intro i hi
    rw [List.mem_range] at hi
    have hmem : hs.getD i "" ∈ hs := by
      rw [List.getD_eq_getElem hs "" hi]
      exact List.getElem_mem hi
    rw [hnomatch _ hmem]
    rfl
  have hlen : (exclude_indices f hs).length = hs.length := by
    unfold exclude_indices
    rw [hall, List.length_reverse, List.length_range]
  have hpos : 0 < hs.length := List.length_pos.mpr hne
  unfold reconcile_headers
  rw [if_pos (by rw [hlen]; omega), if_neg (by rw [hlen]; omega)]

/-- C5 (amended): with a header row of at least one column, none of whose
names matches an expected model field name, `predict` raises the fatal
no-match error built from the expected field names and the found headers
(bigmler.py lines 144-151), before the output file is opened and before any
row is paired, scored or written. -/
theorem C5_no_match_is_fatal {μ ι π γ : Type} (score : μ → ι → π)
    (combine : List π → γ) (pairFn : List String → ι) (f hs : List String)
    (rows : List (List String)) (ms : List μ) (M : Nat)
    (hne : hs ≠ []) (hnomatch : ∀ h ∈ hs, f.contains h = false) :
    predict_local score combine pairFn f true hs rows ms M
      = { trace := [Ev.openTestFile, Ev.readHeaderRow],
          output := Except.error (no_match_error f hs),
          persisted := [] } ∧
    Ev.openOutputFile ∉ (predict_local score combine pairFn f true hs rows ms M).trace ∧
    ∀ i : Nat,
      Ev.pairRow i ∉ (predict_local score combine pairFn f true hs rows ms M).trace ∧
      Ev.scoreGroup i ∉ (predict_local score combine pairFn f true hs rows ms M).trace ∧
      Ev.writeRow i ∉ (predict_local score combine pairFn f true hs rows ms M).trace := by
  have heq : predict_local score combine pairFn f true hs rows ms M
      = { trace := [Ev.openTestFile, Ev.readHeaderRow],
          output := Except.error (no_match_error f hs),
          persisted := [] } := by
    unfold predict_local
    rw [if_pos rfl, reconcile_headers_no_match f hs hne hnomatch]
  refine ⟨heq, ?_, ?_⟩
  · rw [heq]
    simp
  · intro i
    rw [heq]
    refine ⟨?_, ?_, ?_⟩ <;> simp

/-- Witness for C5 at a concrete input: two expected fields, two headers,
none matching. -/
theorem C5_no_match_is_fatal_witness :
    (["x", "y"] : List String) ≠ [] ∧
    (∀ h ∈ (["x", "y"] : List String),
      (["f1", "f2"] : List String).contains h = false) ∧
    (predict_local (fun (m : Nat) (x : List String) => m) (fun l => l.length)
        (fun r => r) ["f1", "f2"] true ["x", "y"] [["1", "2"]] [0] 5
      = { trace := [Ev.openTestFile, Ev.readHeaderRow],
          output := Except.error (no_match_error ["f1", "f2"] ["x", "y"]),
          persisted := [] } ∧
    Ev.openOutputFile ∉ (predict_local (fun (m : Nat) (x : List String) => m)
        (fun l => l.length) (fun r => r) ["f1", "f2"] true ["x", "y"]
        [["1", "2"]] [0] 5).trace ∧
    ∀ i : Nat,
      Ev.pairRow i ∉ (predict_local (fun (m : Nat) (x : List String) => m)
        (fun l => l.length) (fun r => r) ["f1", "f2"] true ["x", "y"]
        [["1", "2"]] [0] 5).trace ∧
      Ev.scoreGroup i ∉ (predict_local (fun (m : Nat) (x : List String) => m)
        (fun l => l.length) (fun r => r) ["f1", "f2"] true ["x", "y"]
        [["1", "2"]] [0] 5).trace ∧
      Ev.writeRow i ∉ (predict_local (fun (m : Nat) (x : List String) => m)
        (fun l => l.length) (fun r => r) ["f1", "f2"] true ["x", "y"]
        [["1", "2"]] [0] 5).trace) :=
  ⟨by decide, by decide,
    C5_no_match_is_fatal (fun (m : Nat) (x : List String) => m)
      (fun l => l.length) (fun r => r) ["f1", "f2"] ["x", "y"]
      [["1", "2"]] [0] 5 (by decide) (by decide)⟩

/-- C5 counterexample: a supplied header row that is empty vacuously matches
no expected field, yet `predict` raises no fatal error — the exclusion list
is empty, the run proceeds, opens the output and scores the rows. -/
theorem C5_empty_header_counterexample :
    (∀ h ∈ ([] : List String), (["f1"] : List String).contains h = false) ∧
    (predict_local (fun (m : Nat) (x : List String) => m) (fun l => l.length)
        (fun r => r) ["f1"] true [] [["v"]] [0] 5).output = Except.ok [1] ∧
    (predict_local (fun (m : Nat) (x : List String) => m) (fun l => l.length)
        (fun r => r) ["f1"] true [] [["v"]] [0] 5).output
      ≠ Except.error (no_match_error ["f1"] []) ∧
    Ev.openOutputFile ∈ (predict_local (fun (m : Nat) (x : List String) => m)
        (fun l => l.length) (fun r => r) ["f1"] true [] [["v"]] [0] 5).trace := by
  refine ⟨by decide, rfl, ?_, by decide⟩
  intro hcontra
  have hok : (predict_local (fun (m : Nat) (x : List String) => m)
      (fun l => l.length) (fun r => r) ["f1"] true [] [["v"]] [0] 5).output
      = Except.ok [1] := rfl
  rw [hok] at hcontra
  exact Except.noConfusion hcontra

/-- C6: with some but not all header names matching the expected fields,
the run is not aborted: the Schema Reconciler returns the reduced header
list (exactly the matching names, in order) together with the exclusion
indices and the warning listing expected versus found names; the exclusion
indices are stored in strictly descending order; and applying the stored
sequential deletions to any row removes exactly the cells at the excluded
original indices — descending order prevents any index shift. -/
theorem C6_mismatched_columns_dropped (f hs : List String)
    (hsome : ∃ h ∈ hs, f.contains h = true)
    (hmiss : ∃ h ∈ hs, f.contains h = false) :
    reconcile_headers f hs
      = Except.ok (hs.filter (fun h => f.contains h), exclude_indices f hs,
          some (mismatch_warning f hs)) ∧
    (exclude_indices f hs).Pairwise (· > ·) ∧
    ∀ row : List String, delete_indices row (exclude_indices f hs)
        = keep_cols (exclude_indices f hs) 0 row := by
  have hdesc := exclude_indices_sorted f hs
  obtain ⟨hm, hmmem, hmval⟩ := hmiss
  obtain ⟨hp, hpmem, hpval⟩ := hsome
  obtain ⟨jm, hjm, hjmv⟩ := List.mem_iff_getElem.mp hmmem
  obtain ⟨jp, hjp, hjpv⟩ := List.mem_iff_getElem.mp hpmem
  have hjm_mem : jm ∈ exclude_indices f hs := by
    rw [mem_exclude_indices]
    refine ⟨hjm, ?_⟩
    rw [List.getD_eq_getElem hs "" hjm, hjmv]
    exact hmval
  have hne : (exclude_indices f hs).length ≠ 0 := by
    intro hc
    rw [List.length_eq_zero] at hc
    rw [hc] at hjm_mem
    cases hjm_mem
  have hlt : (exclude_indices f hs).length < hs.length := by
    have hle : (exclude_indices f hs).length ≤ hs.length := by
      unfold exclude_indices
      rw [List.length_reverse]
      have := List.length_filter_le
        (fun i => !(f.contains (hs.getD i ""))) (List.range hs.length)
      rw [List.length_range] at this
      exact this
    rcases Nat.lt_or_ge (exclude_indices f hs).length hs.length with h | h
    · exact h
    · exfalso
      have heq : (exclude_indices f hs).length = hs.length := by omega
      unfold exclude_indices at heq
      rw [List.length_reverse] at heq
      have hlr : (List.range hs.length).length = hs.length := List.length_range _
      have heq2 : (List.filter (fun i => !(f.contains (hs.getD i "")))
          (List.range hs.length)).length = (List.range hs.length).length := by
        rw [hlr]
        exact heq
      have hallmem := List.filter_length_eq_length.mp heq2 jp
        (by rw [List.mem_range]; exact hjp)
      have : f.contains (hs.getD jp "") = false := by
        simpa using hallmem
      rw [List.getD_eq_getElem hs "" hjp, hjpv, hpval] at this
      cases this
  refine ⟨?_, hdesc, fun row => delete_indices_eq_keep_cols _ row hdesc⟩
  unfold reconcile_headers
  rw [if_pos hne, if_pos (by omega)]
  have hdel : delete_indices hs (exclude_indices f hs)
      = hs.filter (fun h => f.contains h) := by
    rw [delete_indices_eq_keep_cols _ hs hdesc]
    apply keep_cols_pred
    intro m hm
    have hget : hs.getD m default = hs.getD m "" := rfl
    rw [Nat.zero_add, hget]
    cases hv : f.contains (hs.getD m "")
    · have : m ∈ exclude_indices f hs := by
        rw [mem_exclude_indices]
        exact ⟨hm, hv⟩
      rw [(contains_eq_true_iff _ _).mpr this]
      rfl
    · cases hcc : (exclude_indices f hs).contains m
      · rfl
      · exfalso
        have := (contains_eq_true_iff _ _).mp hcc
        rw [mem_exclude_indices] at this
        rw [this.2] at hv
        cases hv
  rw [hdel]

/-- Witness for C6 at a concrete input: header "a" matches, header "zz" does
not. -/
theorem C6_mismatched_columns_dropped_witness :
    (∃ h ∈ (["a", "zz"] : List String), (["a", "b"] : List String).contains h = true) ∧
    (∃ h ∈ (["a", "zz"] : List String), (["a", "b"] : List String).contains h = false) ∧
    (reconcile_headers ["a", "b"] ["a", "zz"]
      = Except.ok ((["a", "zz"] : List String).filter
            (fun h => (["a", "b"] : List String).contains h),
          exclude_indices ["a", "b"] ["a", "zz"],
          some (mismatch_warning ["a", "b"] ["a", "zz"])) ∧
    (exclude_indices ["a", "b"] ["a", "zz"]).Pairwise (· > ·) ∧
    ∀ row : List String, delete_indices row (exclude_indices ["a", "b"] ["a", "zz"])
        = keep_cols (exclude_indices ["a", "b"] ["a", "zz"]) 0 row) :=
  ⟨by decide, by decide,
    C6_mismatched_columns_dropped ["a", "b"] ["a", "zz"]
      (by decide) (by decide)⟩

/-- Modelled from the spec: the Checkpoint Coordinator's per-model test — a
persisted artifact is acceptable when it exists and its row count equals the
expected number of test rows (`checkpoint(are_predictions_created,
predictions_file, number_of_tests)`; both helpers live in `bigmler.utils`,
outside the sources under verification). -/
def artifact_ok {μ : Type} (artifactRows : μ → Option Nat)
    (number_of_tests : Nat) (m : μ) : Bool :=
  match artifactRows m with
  | none => false
  | some c => c == number_of_tests

inductive ModelAction where
  | reused
  | recomputed
deriving DecidableEq

/-- The remote prediction loop's resume handling (bigmler.py lines 171-197):
per model, while resume is still on it is reassigned the checkpoint test's
result (`resume = checkpoint(...)`, line 178); the model's predictions are
recomputed exactly when resume is off afterwards (`if not resume`,
line 180).  Returns the per-model actions and the final resume flag. -/
def remote_resume_run {μ : Type} (ok : μ → Bool) :
    List μ → Bool → List ModelAction × Bool
  | [], resume => ([], resume)
  | m :: rest, resume =>
      let resume' := if resume then ok m else resume
      let act := if resume' then ModelAction.reused else ModelAction.recomputed
      let next := remote_resume_run ok rest resume'
      (act :: next.1, next.2)

/-- The local batch-mode resume check (bigmler.py lines 233-240): for each
group, when resume is on, `checkpoint(...)` is evaluated per model but its
return value is discarded — unlike line 178, the resume flag is never
reassigned.  Returns the final flag together with the discarded checkpoint
results. -/
def local_resume_run {μ : Type} (ok : μ → Bool) (splits : List (List μ))
    (resume : Bool) : Bool × List Bool :=
  splits.foldl
    (fun st g => (st.1, st.2 ++ (if st.1 then g.map ok else [])))
    (resume, [])

/-- C7 evidence: in the local batch branch a failed checkpoint test (model 0
has no acceptable artifact, `ok` returns false) leaves the resume flag on —
the flag returned by the loop always equals the flag it started with, for
every checkpoint outcome.  The remote branch, by contrast, does disable
resume at the first bad model and recomputes every model from there on. -/
theorem C7_local_resume_never_disabled :
    (local_resume_run (fun _ : Nat => false) [[0]] true = (true, [false])) ∧
    (∀ (ok : Nat → Bool) (splits : List (List Nat)) (resume : Bool),
      (local_resume_run ok splits resume).1 = resume) ∧
    (remote_resume_run (fun m : Nat => m != 1) [0, 1, 2] true
      = ([ModelAction.reused, ModelAction.recomputed, ModelAction.recomputed],
         false)) := by
  refine ⟨rfl, ?_, rfl⟩
  intro ok splits resume
  have aux : ∀ (ss : List (List Nat)) (st : Bool × List Bool),
      (ss.foldl (fun st g => (st.1, st.2 ++ (if st.1 then g.map ok else []))) st).1
        = st.1 := by
    intro ss
    induction ss with
    | nil => intro st; rfl
    | cons g gs ih =>
        intro st
        rw [List.foldl_cons]
        exact ih _
  exact aux splits (resume, [])

/-- The progress counter of the batch loop (bigmler.py lines 250-254): after
each group, `models_count += max_models`, capped at `models_total`
(`if models_count > models_total: models_count = models_total`), and the
progress bar reports the updated count. -/
def progress_reports {μ : Type} (max_models models_total : Nat)
    (splits : List (List μ)) : List Nat :=
  (splits.foldl
    (fun st _g =>
      (if st.1 + max_models > models_total then models_total
       else st.1 + max_models,
       st.2 ++ [if st.1 + max_models > models_total then models_total
                else st.1 + max_models]))
    (0, [])).2

theorem progress_step_props {μ : Type} (M N : Nat) :
    ∀ (gs : List (List μ)) (c : Nat) (acc : List Nat),
      c ≤ N → (∀ r ∈ acc, r ≤ c) → acc.Pairwise (· ≤ ·) →
      (acc = [] ∨ acc.getLast? = some c) →
      ∀ st, gs.foldl
          (fun st _g =>
            (if st.1 + M > N then N else st.1 + M,
             st.2 ++ [if st.1 + M > N then N else st.1 + M]))
          (c, acc) = st →
        st.2.Pairwise (· ≤ ·) ∧ (∀ r ∈ st.2, r ≤ N) ∧
        st.2.length = acc.length + gs.length ∧
        (st.2 = [] ∨ st.2.getLast? = some st.1) := by
  intro gs
  induction gs with
  | nil =>
      intro c acc hc hacc hpw hlast st hst
      rw [List.foldl_nil] at hst
      subst hst
      refine ⟨hpw, fun r hr => le_trans (hacc r hr) hc, by simp, hlast⟩
  | cons g gs ih =>
      intro c acc hc hacc hpw hlast st hst
      rw [List.foldl_cons] at hst
      have hc'le : (if c + M > N then N else c + M) ≤ N := by
        split <;> omega
      have hcc' : c ≤ (if c + M > N then N else c + M) := by
        split <;> omega
      have hacc' : ∀ r ∈ acc ++ [if c + M > N then N else c + M],
          r ≤ (if c + M > N then N else c + M) := by
        intro r hr
        rcases List.mem_append.mp hr with hr | hr
        · exact le_trans (hacc r hr) hcc'
        · rcases List.mem_singleton.mp hr with rfl
          exact le_rfl
      have hpw' : (acc ++ [if c + M > N then N else c + M]).Pairwise (· ≤ ·) := by
        rw [List.pairwise_append]
        refine ⟨hpw, List.pairwise_singleton _ _, ?_⟩
        intro a ha b hb
        simp at hb
        subst hb
        exact le_trans (hacc a ha) hcc'
      have hlast' : (acc ++ [if c + M > N then N else c + M] = [] ∨
          (acc ++ [if c + M > N then N else c + M]).getLast?
            = some (if c + M > N then N else c + M)) :=
        Or.inr (List.getLast?_concat acc)
      have hres := ih (if c + M > N then N else c + M)
        (acc ++ [if c + M > N then N else c + M]) hc'le hacc' hpw' hlast' st hst
      obtain ⟨p1, p2, p3, p4⟩ := hres
      refine ⟨p1, p2, ?_, p4⟩
      rw [p3]
      simp
      omega

theorem progress_final {μ : Type} (M N : Nat) :
    ∀ (gs : List (List μ)) (c : Nat) (acc : List Nat),
      c ≤ N → N ≤ M * gs.length + c →
      (gs.foldl
        (fun st _g =>
          (if st.1 + M > N then N else st.1 + M,
           st.2 ++ [if st.1 + M > N then N else st.1 + M]))
        (c, acc)).1 = N := by
  intro gs
  induction gs with
  | nil =>
      intro c acc hc hN
      rw [List.foldl_nil]
      simp at hN
      omega
  | cons g gs ih =>
      intro c acc hc hN
      rw [List.foldl_cons]
      rw [List.length_cons, Nat.mul_succ] at hN
      apply ih
      · split <;> omega
      · generalize hA : M * gs.length = A at hN ⊢
        split <;> omega

/-- C8: the progress counts reported after each batch group are
non-decreasing, never exceed the total model count, one count is reported
per group, and the count reported after the final group equals the total
model count exactly. -/
theorem C8_progress_monotone_capped {μ : Type} (ms : List μ) (M : Nat)
    (hM : 0 < M) (hle : M ≤ ms.length) :
    (progress_reports M ms.length (models_splits ms M)).Pairwise (· ≤ ·) ∧
    (∀ r ∈ progress_reports M ms.length (models_splits ms M), r ≤ ms.length) ∧
    (progress_reports M ms.length (models_splits ms M)).length
      = (models_splits ms M).length ∧
    (progress_reports M ms.length (models_splits ms M)).getLast?
      = some ms.length := by
  have hGlen : (models_splits ms M).length = (ms.length + M - 1) / M := by
    rw [models_splits_eq_chunkList hM]
    exact chunkList_length hM ms
  have hdm := Nat.div_add_mod (ms.length + M - 1) M
  have hmod := Nat.mod_lt (ms.length + M - 1) hM
  have hNle : ms.length ≤ M * (models_splits ms M).length := by
    rw [hGlen]
    generalize hq : (ms.length + M - 1) / M = q at hdm ⊢
    generalize hr : (ms.length + M - 1) % M = r at hdm hmod
    generalize hA : M * q = A at hdm ⊢
    omega
  have hGpos : 0 < (models_splits ms M).length := by
    rw [hGlen]
    generalize hq : (ms.length + M - 1) / M = q at hdm ⊢
    generalize hr : (ms.length + M - 1) % M = r at hdm hmod
    generalize hA : M * q = A at hdm
    by_contra hzero
    push_neg at hzero
    have hq0 : q = 0 := by omega
    rw [hq0] at hA
    simp at hA
    omega
  have hpr : progress_reports M ms.length (models_splits ms M)
      = ((models_splits ms M).foldl
          (fun st _g =>
            (if st.1 + M > ms.length then ms.length else st.1 + M,
             st.2 ++ [if st.1 + M > ms.length then ms.length else st.1 + M]))
          (0, [])).2 := rfl
  have hprops := progress_step_props M ms.length (models_splits ms M) 0 []
    (by omega) (by intro r hr; cases hr) List.Pairwise.nil (Or.inl rfl)
    ((models_splits ms M).foldl
      (fun st _g =>
        (if st.1 + M > ms.length then ms.length else st.1 + M,
         st.2 ++ [if st.1 + M > ms.length then ms.length else st.1 + M]))
      (0, [])) rfl
  obtain ⟨p1, p2, p3, p4⟩ := hprops
  have hfinal := progress_final M ms.length (models_splits ms M) 0 []
    (by omega) (by simpa using hNle)
  rw [hpr]
  refine ⟨p1, p2, ?_, ?_⟩
  · rw [p3]
    simp
  · rcases p4 with h | h
    · exfalso
      have := p3
      rw [h] at this
      simp at this
      omega
    · rw [h, hfinal]

/-- Combiner code-to-name map; constants of bigml.multivote (external
library, imported at bigmler.py line 62). -/
def COMBINER_MAP : List (Nat × String) :=
  [(0, "plurality"), (1, "confidence weighted"), (2, "probability weighted")]

/-- Method names that carry combination weights; the keys of
bigml.multivote.COMBINATION_WEIGHTS (external library). -/
def combination_weight_keys : List String :=
  ["plurality", "confidence weighted", "probability weighted"]

/-- Dict inversion `combiner_methods = dict([[value, key] for key, value in
COMBINER_MAP.items()])` (bigmler.py lines 899-900). -/
def combiner_methods : List (String × Nat) :=
  COMBINER_MAP.map (fun p => (p.2, p.1))

/-- Combination-method normalization in `main` (bigmler.py lines 894-901):
a truthy method name absent from COMBINATION_WEIGHTS becomes code 0;
otherwise the name is looked up in the inverted map with default 0.
`None` (and the falsy empty string) is never a key, hence maps to 0. -/
def normalize_method : Option String → Nat
  | none => 0
  | some s =>
      if s != "" && !(combination_weight_keys.contains s) then 0
      else (combiner_methods.lookup s).getD 0

/-- C10: whatever the combination-method argument is, the normalized method
is one of the valid combiner codes, and any name that is not a value of the
combiner map is silently mapped to code 0 (plurality), never an error. -/
theorem C10_method_normalization :
    (∀ m : Option String, normalize_method m ∈ COMBINER_MAP.map Prod.fst) ∧
    (∀ s : String, s ∉ COMBINER_MAP.map Prod.snd →
      normalize_method (some s) = 0) ∧
    normalize_method none = 0 := by
  refine ⟨?_, ?_, rfl⟩
  · intro m
    cases m with
    | none => simp [normalize_method, COMBINER_MAP]
    | some s =>
        show (if s != "" && !(combination_weight_keys.contains s) then 0
          else (combiner_methods.lookup s).getD 0) ∈ COMBINER_MAP.map Prod.fst
        split
        · simp [COMBINER_MAP]
        · unfold combiner_methods COMBINER_MAP
          simp only [List.map_cons, List.map_nil, List.lookup]
          cases hps : (s == "plurality") <;>
            cases hcw : (s == "confidence weighted") <;>
              cases hpb : (s == "probability weighted") <;>
                simp [hps, hcw, hpb]
  · intro s hs
    have h1 : ¬ (s = "plurality" ∨ s = "confidence weighted" ∨
        s = "probability weighted") := by
      intro hc
      apply hs
      unfold COMBINER_MAP
      rcases hc with hc | hc | hc <;> subst hc <;> simp
    push_neg at h1
    show (if s != "" && !(combination_weight_keys.contains s) then 0
      else (combiner_methods.lookup s).getD 0) = 0
    split
    · rfl
    · unfold combiner_methods COMBINER_MAP
      simp only [List.map_cons, List.map_nil, List.lookup]
      have e1 : (s == "plurality") = false := by simp [h1.1]
      have e2 : (s == "confidence weighted") = false := by simp [h1.2.1]
      have e3 : (s == "probability weighted") = false := by simp [h1.2.2]
      rw [e1, e2, e3]
      rfl

/-- Witness for C10: the unknown method name "bogus" is mapped to code 0. -/
theorem C10_method_normalization_witness :
    "bogus" ∉ COMBINER_MAP.map Prod.snd ∧
    normalize_method (some "bogus") = 0 :=
  ⟨by decide, C10_method_normalization.2.1 "bogus" (by decide)⟩

/-- Witness for C8: five models in groups of two report 2, 4, 5. -/
theorem C8_progress_monotone_capped_witness :
    0 < 2 ∧ 2 ≤ ([1, 2, 3, 4, 5] : List Nat).length ∧
    ((progress_reports 2 ([1, 2, 3, 4, 5] : List Nat).length
        (models_splits [1, 2, 3, 4, 5] 2)).Pairwise (· ≤ ·) ∧
    (∀ r ∈ progress_reports 2 ([1, 2, 3, 4, 5] : List Nat).length
        (models_splits [1, 2, 3, 4, 5] 2), r ≤ ([1, 2, 3, 4, 5] : List Nat).length) ∧
    (progress_reports 2 ([1, 2, 3, 4, 5] : List Nat).length
        (models_splits [1, 2, 3, 4, 5] 2)).length
      = (models_splits [1, 2, 3, 4, 5] 2).length ∧
    (progress_reports 2 ([1, 2, 3, 4, 5] : List Nat).length
        (models_splits [1, 2, 3, 4, 5] 2)).getLast?
      = some ([1, 2, 3, 4, 5] : List Nat).length) :=
  ⟨by decide, by decide,
    C8_progress_monotone_capped [1, 2, 3, 4, 5] 2 (by decide) (by decide)⟩

def isPairEv : Ev → Bool
  | Ev.pairRow _ => true
  | _ => false

def isScoreEv : Ev → Bool
  | Ev.scoreGroup _ => true
  | _ => false

theorem pair_before_score_append (A B : List Ev)
    (hA : ∀ e ∈ A, isScoreEv e = false) (hB : ∀ e ∈ B, isPairEv e = false) :
    ∀ i j : Nat,
      isPairEv ((A ++ B).getD i Ev.openTestFile) = true →
      isScoreEv ((A ++ B).getD j Ev.openTestFile) = true → i < j := by
  intro i j hpi hsj
  have hjB : A.length ≤ j := by
    by_contra hlt
    push_neg at hlt
    rw [List.getD_append A B Ev.openTestFile j hlt] at hsj
    have hmem : A.getD j Ev.openTestFile ∈ A := by
      rw [List.getD_eq_getElem A Ev.openTestFile hlt]
      exact List.getElem_mem hlt
    rw [hA _ hmem] at hsj
    cases hsj
  have hiA : i < A.length := by
    by_contra hge
    push_neg at hge
    rw [List.getD_append_right A B Ev.openTestFile i hge] at hpi
    by_cases hrange : i - A.length < B.length
    · have hmem : B.getD (i - A.length) Ev.openTestFile ∈ B := by
        rw [List.getD_eq_getElem B Ev.openTestFile hrange]
        exact List.getElem_mem hrange
      rw [hB _ hmem] at hpi
      cases hpi
    · push_neg at hrange
      rw [List.getD_eq_default B Ev.openTestFile hrange] at hpi
      cases hpi
  omega

/-- C9: in batch mode with the header row disabled, the run first pairs
every test row (in file order) into `input_data_list`, then scores the
groups, then writes the output — the whole trace is exactly the pairing
events followed by the scoring events followed by the writes, and every
pairing event precedes every scoring event; every group is scored against
the same fully materialized inputs, so the outputs combine the full model
list's predictions row by row. -/
theorem C9_rows_paired_before_scoring {μ ι π γ : Type} (score : μ → ι → π)
    (combine : List π → γ) (pairFn : List String → ι)
    (fields_names headers : List String) (rows : List (List String))
    (ms : List μ) (M : Nat) (hM : 0 < M) (hle : M ≤ ms.length) :
    predict_local score combine pairFn fields_names false headers rows ms M
      = { trace := ([Ev.openTestFile, Ev.openOutputFile]
            ++ (List.range rows.length).map Ev.pairRow)
            ++ ((List.range (models_splits ms M).length).map Ev.scoreGroup
            ++ (List.range rows.length).map Ev.writeRow),
          output := Except.ok ((rows.map (fun r =>
            ms.map (fun m => score m (pairFn (delete_indices r []))))).map combine),
          persisted := ms } ∧
    (∀ i j : Nat,
      isPairEv ((predict_local score combine pairFn fields_names false
        headers rows ms M).trace.getD i Ev.openTestFile) = true →
      isScoreEv ((predict_local score combine pairFn fields_names false
        headers rows ms M).trace.getD j Ev.openTestFile) = true → i < j) := by
  have hms : ms ≠ [] := by
    intro hc
    rw [hc] at hle
    simp at hle
    omega
  have hflat : (models_splits ms M).flatten = ms := by
    rw [models_splits_eq_chunkList hM]
    exact chunkList_flatten hM ms
  have hne : models_splits ms M ≠ [] := by
    intro hc
    apply hms
    rw [← hflat, hc]
    rfl
  have heq : predict_local score combine pairFn fields_names false headers rows ms M
      = { trace := ([Ev.openTestFile, Ev.openOutputFile]
            ++ (List.range rows.length).map Ev.pairRow)
            ++ ((List.range (models_splits ms M).length).map Ev.scoreGroup
            ++ (List.range rows.length).map Ev.writeRow),
          output := Except.ok ((rows.map (fun r =>
            ms.map (fun m => score m (pairFn (delete_indices r []))))).map combine),
          persisted := ms } := by
    unfold predict_local
    rw [if_neg (by simp)]
    unfold run_local_scoring
    rw [if_neg (by omega)]
    rw [accumulate_votes_spec score (rows.map (fun r => pairFn (delete_indices r [])))
      (models_splits ms M) hne]
    rw [hflat]
    simp only [List.length_map, List.map_map, Function.comp_def, List.append_assoc,
      List.nil_append, List.cons_append]
  refine ⟨heq, ?_⟩
  intro i j hpi hsj
  rw [heq] at hpi hsj
  refine pair_before_score_append
    ([Ev.openTestFile, Ev.openOutputFile] ++ (List.range rows.length).map Ev.pairRow)
    ((List.range (models_splits ms M).length).map Ev.scoreGroup
      ++ (List.range rows.length).map Ev.writeRow)
    ?_ ?_ i j hpi hsj
  · intro e he
    rcases List.mem_append.mp he with he | he
    · rcases List.mem_cons.mp he with he | he
      · rw [he]; rfl
      · rcases List.mem_cons.mp he with he | he
        · rw [he]; rfl
        · cases he
    · rcases List.mem_map.mp he with ⟨k, _, hk⟩
      rw [← hk]
      rfl
  · intro e he
    rcases List.mem_append.mp he with he | he
    · rcases List.mem_map.mp he with ⟨k, _, hk⟩
      rw [← hk]
      rfl
    · rcases List.mem_map.mp he with ⟨k, _, hk⟩
      rw [← hk]
      rfl

/-- Witness for C9: two rows, three models, groups of two. -/
theorem C9_rows_paired_before_scoring_witness :
    0 < 2 ∧ 2 ≤ ([1, 2, 3] : List Nat).length ∧
    (predict_local (fun (m : Nat) (x : List String) => m + x.length)
        (fun l => l.length) (fun r => r) ["f"] false ["h"]
        [["a"], ["b"]] [1, 2, 3] 2
      = { trace := ([Ev.openTestFile, Ev.openOutputFile]
            ++ (List.range ([["a"], ["b"]] : List (List String)).length).map Ev.pairRow)
            ++ ((List.range (models_splits [1, 2, 3] 2).length).map Ev.scoreGroup
            ++ (List.range ([["a"], ["b"]] : List (List String)).length).map Ev.writeRow),
          output := Except.ok ((([["a"], ["b"]] : List (List String)).map (fun r =>
            ([1, 2, 3] : List Nat).map
              (fun m => m + (delete_indices r []).length))).map
            (fun l => l.length)),
          persisted := [1, 2, 3] } ∧
    (∀ i j : Nat,
      isPairEv ((predict_local (fun (m : Nat) (x : List String) => m + x.length)
        (fun l => l.length) (fun r => r) ["f"] false ["h"]
        [["a"], ["b"]] [1, 2, 3] 2).trace.getD i Ev.openTestFile) = true →
      isScoreEv ((predict_local (fun (m : Nat) (x : List String) => m + x.length)
        (fun l => l.length) (fun r => r) ["f"] false ["h"]
        [["a"], ["b"]] [1, 2, 3] 2).trace.getD j Ev.openTestFile) = true → i < j)) :=
  ⟨by decide, by decide,
    C9_rows_paired_before_scoring (fun (m : Nat) (x : List String) => m + x.length)
      (fun l => l.length) (fun r => r) ["f"] ["h"] [["a"], ["b"]] [1, 2, 3] 2
      (by decide) (by decide)⟩

end BigMLer
